import Mathlib

/-!
Verification development for the `jrm` per-project runtime version manager.

The definitions below are a shallow embedding of the program's core:
the semver fragment it uses (a model of the external npm `semver`
library restricted to the constructs the program exercises: exact
versions, caret ranges, prerelease ordering, one optional leading `v`
and surrounding whitespace accepted by the parser), the version store
(`getInstalledVersions`), the remote-candidate normalisation
(`getRemoteVersions`), `install`, the resolution phase of `use`,
`alias`, and the Detector's upward walk.  Filesystem reads are
represented by explicit data (directory listings as `Option (List
String)`, per-directory detection inputs as `DirNode`), and interactive
input as a string parameter.
-/

namespace JRM

/-- Characters treated as whitespace by the ASCII fragment of
JavaScript's `String.prototype.trim`. -/
def isJsWhitespace (c : Char) : Bool :=
  c = ' ' || c = '\t' || c = '\n' || c = '\r'

/-- Drop leading and trailing whitespace from a character list. -/
def trimCharList (cs : List Char) : List Char :=
  ((cs.dropWhile isJsWhitespace).reverse.dropWhile isJsWhitespace).reverse

/-- Model of JavaScript `String.prototype.trim`. -/
def jsTrim (s : String) : String := ⟨trimCharList s.data⟩

/-- Model of JavaScript `String.prototype.toLowerCase` (ASCII data). -/
def jsToLower (s : String) : String := ⟨s.data.map Char.toLower⟩

/-- A parsed semantic version: numeric triple plus prerelease
identifiers (build metadata is outside the modelled fragment). -/
structure SemVer where
  major : Nat
  minor : Nat
  patch : Nat
  pre : List String
deriving DecidableEq

/-- Parse a strict numeric identifier: digits only, no leading zero. -/
def parseNatStrict : List Char → Option Nat
  | [] => none
  | cs =>
    if cs.all Char.isDigit then
      match cs with
      | '0' :: _ :: _ => none
      | _ => some (cs.foldl (fun n c => n * 10 + (c.toNat - 48)) 0)
    else none

/-- Split a character list on a separator character. -/
def splitOnChar (sep : Char) : List Char → List (List Char)
  | [] => [[]]
  | c :: rest =>
    let r := splitOnChar sep rest
    if c = sep then [] :: r
    else
      match r with
      | h :: t => (c :: h) :: t
      | [] => [[c]]

/-- Valid character of a prerelease identifier. -/
def isIdentChar (c : Char) : Bool := c.isAlphanum || c = '-'

/-- A valid prerelease identifier: nonempty, alphanumeric-or-hyphen,
and numeric identifiers carry no leading zero. -/
def validPreId (cs : List Char) : Bool :=
  !cs.isEmpty && cs.all isIdentChar &&
    (if cs.all Char.isDigit then
      match cs with
      | '0' :: _ :: _ => false
      | _ => true
    else true)

/-- Parse the `MAJOR.MINOR.PATCH` core. -/
def parseCore (cs : List Char) : Option (Nat × Nat × Nat) :=
  match splitOnChar '.' cs with
  | [a, b, c] =>
    match parseNatStrict a, parseNatStrict b, parseNatStrict c with
    | some x, some y, some z => some (x, y, z)
    | _, _, _ => none
  | _ => none

/-- Parse a dot-separated prerelease identifier list. -/
def parsePre (cs : List Char) : Option (List String) :=
  let ids := splitOnChar '.' cs
  if ids.all validPreId then some (ids.map (fun l => ⟨l⟩)) else none

/-- Strict semver parser: `MAJOR.MINOR.PATCH` with an optional
`-prerelease` tail.  Build metadata is outside the modelled fragment
and rejected. -/
def parseStrict (s : String) : Option SemVer :=
  if s.data.contains '+' then none
  else
    match parseCore (s.data.takeWhile (· ≠ '-')) with
    | none => none
    | some (a, b, c) =>
      match s.data.dropWhile (· ≠ '-') with
      | [] => some ⟨a, b, c, []⟩
      | _ :: preChars =>
        match parsePre preChars with
        | some ids => some ⟨a, b, c, ids⟩
        | none => none

/-- Drop one leading `v` if present. -/
def dropLeadingV (cs : List Char) : List Char :=
  match cs with
  | 'v' :: rest => rest
  | _ => cs

/-- Model of npm `semver.parse` / `semver.valid` on the modelled
fragment: surrounding whitespace is trimmed and one leading `v` is
ignored before strict parsing. -/
def npmParse (s : String) : Option SemVer :=
  parseStrict ⟨dropLeadingV (trimCharList s.data)⟩

/-- Decimal digits of a natural number, least significant first; the
first argument is recursion fuel (any bound above the digit count). -/
def natToRevDigits : Nat → Nat → List Char
  | 0, _ => []
  | fuel + 1, n =>
    let d := Char.ofNat (48 + n % 10)
    if n < 10 then [d] else d :: natToRevDigits fuel (n / 10)

/-- Decimal rendering of a natural number. -/
def natToStringChars (n : Nat) : List Char := (natToRevDigits (n + 1) n).reverse

/-- Render a prerelease identifier list, dot separated. -/
def renderPre : List String → List Char
  | [] => []
  | [x] => x.data
  | x :: rest => x.data ++ '.' :: renderPre rest

/-- Canonical string of a parsed version, as npm `semver.valid`
returns it. -/
def renderSemVer (v : SemVer) : String :=
  ⟨natToStringChars v.major ++ '.' :: natToStringChars v.minor ++ '.' :: natToStringChars v.patch ++
    (match v.pre with
     | [] => []
     | ids => '-' :: renderPre ids)⟩

/-- Three-way comparison on naturals. -/
def natCmp (a b : Nat) : Ordering :=
  if a < b then .lt else if b < a then .gt else .eq

/-- Three-way comparison on characters (by code unit). -/
def charCmp (c d : Char) : Ordering :=
  if c = d then .eq else natCmp c.toNat d.toNat

/-- Lexicographic comparison of character lists (ASCII order), as npm
semver compares alphanumeric prerelease identifiers. -/
def compareCharList : List Char → List Char → Ordering
  | [], [] => .eq
  | [], _ :: _ => .lt
  | _ :: _, [] => .gt
  | a :: as, b :: bs =>
    match charCmp a b with
    | .eq => compareCharList as bs
    | o => o

/-- npm prerelease identifier comparison: numeric identifiers compare
numerically and sort below alphanumeric ones. -/
def compareIdent (a b : String) : Ordering :=
  match parseNatStrict a.data, parseNatStrict b.data with
  | some x, some y => natCmp x y
  | some _, none => .lt
  | none, some _ => .gt
  | none, none => compareCharList a.data b.data

/-- Identifier-by-identifier comparison of prerelease lists; a shorter
list sorts below an extension of it. -/
def comparePre : List String → List String → Ordering
  | [], [] => .eq
  | [], _ :: _ => .lt
  | _ :: _, [] => .gt
  | a :: as, b :: bs =>
    match compareIdent a b with
    | .eq => comparePre as bs
    | o => o

/-- Prerelease comparison at the version level: a release sorts above
any prerelease of the same triple. -/
def preListCmp : List String → List String → Ordering
  | [], [] => .eq
  | [], _ :: _ => .gt
  | _ :: _, [] => .lt
  | a, b => comparePre a b

/-- Model of npm `semver.compare`: the numeric triple
lexicographically, then the prerelease lists. -/
def semverCmp (x y : SemVer) : Ordering :=
  (natCmp x.major y.major).then ((natCmp x.minor y.minor).then
    ((natCmp x.patch y.patch).then (preListCmp x.pre y.pre)))

/-- String-level `semver.compare`; unparseable strings sort below
parseable ones (the program only compares parseable strings). -/
def npmCompareStr (x y : String) : Ordering :=
  match npmParse x, npmParse y with
  | some a, some b => semverCmp a b
  | some _, none => .gt
  | none, some _ => .lt
  | none, none => .eq

/-- Range fragment the program exercises: an exact comparator or a
caret range. -/
inductive RangeAST where
  | exactR (v : SemVer)
  | caretR (v : SemVer)
deriving DecidableEq

/-- Model of npm range parsing restricted to the fragment this program
exercises: `^X.Y.Z`, `=X.Y.Z`, or a bare exact version, each allowing
one leading `v` on the version. -/
def parseRange (s : String) : Option RangeAST :=
  match trimCharList s.data with
  | '^' :: rest => (parseStrict ⟨dropLeadingV rest⟩).map .caretR
  | '=' :: rest => (parseStrict ⟨dropLeadingV rest⟩).map .exactR
  | t => (parseStrict ⟨dropLeadingV t⟩).map .exactR

/-- Model of npm `semver.validRange` on the modelled fragment. -/
def validRangeB (s : String) : Bool := (parseRange s).isSome

/-- Exclusive upper bound of a caret range (npm caret semantics,
including the `0.y.z` and `0.0.z` special cases). -/
def caretUpper (v : SemVer) : SemVer :=
  if v.major > 0 then ⟨v.major + 1, 0, 0, []⟩
  else if v.minor > 0 then ⟨0, v.minor + 1, 0, []⟩
  else ⟨0, 0, v.patch + 1, []⟩

/-- Model of npm `semver.satisfies` on a parsed version and range:
exact match, or caret interval with the npm prerelease gate (a
prerelease only satisfies when the comparator carries a prerelease on
the same triple). -/
def satisfiesAST (v : SemVer) (r : RangeAST) : Bool :=
  match r with
  | .exactR e =>
    match semverCmp v e with
    | .eq => true
    | _ => false
  | .caretR base =>
    let inRange :=
      (match semverCmp base v with
       | .gt => false
       | _ => true) &&
      (match semverCmp v (caretUpper base) with
       | .lt => true
       | _ => false)
    if v.pre.isEmpty then inRange
    else
      (!base.pre.isEmpty) && v.major == base.major && v.minor == base.minor &&
        v.patch == base.patch && inRange

/-- Model of npm `semver.satisfies` on strings: false when either side
fails to parse. -/
def satisfiesStr (v r : String) : Bool :=
  match npmParse v, parseRange r with
  | some sv, some ra => satisfiesAST sv ra
  | _, _ => false

/-- Insert into a semver-descending list (stable: an element never
moves past an equal one). -/
def insertByDesc (a : String) : List String → List String
  | [] => [a]
  | b :: t =>
    match npmCompareStr a b with
    | .lt => b :: insertByDesc a t
    | _ => a :: b :: t

/-- Sort descending by semver precedence, as
`.sort((x, y) => semver.compare(y, x))` does. -/
def sortDescBy (l : List String) : List String := l.foldr insertByDesc []

/-- Directory-entry name of an installed version: `v` + version, as
`path.join(versionsDir, "v" + version)` names it. -/
def vEntry (version : String) : String := ⟨'v' :: version.data⟩

/-- Model of `file.startsWith("v")` on a directory entry. -/
def startsWithV (s : String) : Bool :=
  match s.data with
  | c :: _ => c = 'v'
  | [] => false

/-- Model of `file.slice(1)`. -/
def strDrop1 (s : String) : String := ⟨s.data.tail⟩

/-- `Runtime.getInstalledVersions`: read the versions directory (a
missing directory reads as the empty listing), keep `v`-prefixed
entries whose remainder `semver.valid` accepts, and sort descending by
semver precedence. -/
def getInstalledVersions (entries : Option (List String)) : List String :=
  sortDescBy ((((entries.getD []).filter startsWithV).map strDrop1).filter
    (fun v => (npmParse v).isSome))

/-- Model of `.replace(/^v/, "")`. -/
def stripLeadingV (s : String) : String := ⟨dropLeadingV s.data⟩

/-- `Runtime.getRemoteVersions`: strip one leading `v` from each raw
tag, keep only strings that parse with an empty prerelease list, and
sort descending by semver precedence. -/
def getRemoteVersions (raw : List String) : List String :=
  sortDescBy ((raw.map stripLeadingV).filter
    (fun v =>
      match npmParse v with
      | some sv => sv.pre.isEmpty
      | none => false))

/-- Shared on-disk state of one runtime kind: the contents of the
versions directory (`none` = directory missing) and the aliases as
name-to-version bindings (symlink targets resolved). -/
structure Store where
  versionsDir : Option (List String)
  aliases : List (String × String)
deriving DecidableEq

/-- `createVersionSymlink` pointed at an alias path: (re)bind the name,
replacing any prior target. -/
def setAlias (al : List (String × String)) (name target : String) :
    List (String × String) :=
  (name, target) :: al.filter (fun p => p.1 != name)

/-- Result of `Runtime.install`: `false` (already installed), `true`
(installed `version`), or the fatal `No remote version satisfies`. -/
inductive InstallOutcome where
  | fail
  | already
  | ok (version : String)
deriving DecidableEq

/-- Trace of one `install` call: its outcome, whether the remote tag
list was fetched, whether `installRaw` ran, and the resulting store. -/
structure InstallTrace where
  outcome : InstallOutcome
  fetchedRemote : Bool
  ranInstallRaw : Bool
  store : Store
deriving DecidableEq

/-- Tail of `Runtime.install` once the target version is resolved:
`mkdir` the versions directory, skip when already installed, otherwise
run `installRaw` (whose contract is creating the `v<version>` entry)
and seed the `default` alias when the store now holds exactly that one
version. -/
def installResolved (st : Store) (version : String) (fetched : Bool) : InstallTrace :=
  let entries0 := st.versionsDir.getD []
  if version ∈ getInstalledVersions (some entries0) then
    ⟨.already, fetched, false, ⟨some entries0, st.aliases⟩⟩
  else
    let entries1 := vEntry version :: entries0
    if getInstalledVersions (some entries1) = [version] then
      ⟨.ok version, fetched, true, ⟨some entries1, setAlias st.aliases "default" version⟩⟩
    else
      ⟨.ok version, fetched, true, ⟨some entries1, st.aliases⟩⟩

/-- `Runtime.install`: an exact valid semver installs directly (as its
canonical form); otherwise the remote candidates are fetched and the
first one satisfying the range is taken, failing when none does. -/
def installStep (remoteRaw : List String) (st : Store) (versionRange : String) :
    InstallTrace :=
  match npmParse versionRange with
  | some sv => installResolved st (renderSemVer sv) false
  | none =>
    match (getRemoteVersions remoteRaw).find? (fun rv => satisfiesStr rv versionRange) with
    | none => ⟨.fail, true, false, st⟩
    | some tv => installResolved st tv true

/-- Result of the resolution phase of `use`: no change (`undefined`),
an activated version, or the fatal `No remote version satisfies`. -/
inductive UseOutcome where
  | noChange
  | activated (v : String)
  | failRemote
deriving DecidableEq

/-- Trace of one `use` resolution: outcome, whether the install prompt
was issued, whether the install path ran, and the resulting store. -/
structure UseTrace where
  outcome : UseOutcome
  prompted : Bool
  attemptedInstall : Bool
  store : Store
deriving DecidableEq

/-- Model of `ask` (src/src/utils/ask.ts): the raw line is resolved
trimmed. -/
def askStep (input : String) : String := jsTrim input

/-- The `use` confirmation test:
`["y", "yes"].includes(installAnswer.toLowerCase())`. -/
def answerIsYes (installAnswer : String) : Bool :=
  ["y", "yes"].contains (jsToLower installAnswer)

/-- Step 4 of `use`: fetch remote candidates, install and activate the
first satisfying one, or fail fatally. -/
def useRemotePhase (remoteRaw : List String) (st : Store) (versionRange : String) :
    UseTrace :=
  match (getRemoteVersions remoteRaw).find? (fun rv => satisfiesStr rv versionRange) with
  | some tv => ⟨.activated tv, true, true, (installStep remoteRaw st tv).store⟩
  | none => ⟨.failRemote, true, false, st⟩

/-- Step 3 onwards of `use`: scan the installed list for the first
(highest) satisfying version; otherwise prompt, declining means no
change. -/
def useScanPhase (remoteRaw : List String) (st : Store) (versionRange : String)
    (rawAnswer : String) : UseTrace :=
  match (getInstalledVersions st.versionsDir).find? (fun v => satisfiesStr v versionRange) with
  | some v => ⟨.activated v, false, false, st⟩
  | none =>
    if answerIsYes (askStep rawAnswer) then useRemotePhase remoteRaw st versionRange
    else ⟨.noChange, true, false, st⟩

/-- Resolution phase of `Runtime.use` (src/src/runtime.ts lines
176-221), starting from the resolved version range: no range means no
change; the `default` alias short-circuits when it satisfies; then the
installed scan, prompt and remote fallback. -/
def useResolve (remoteRaw : List String) (st : Store) (defaultVersion : Option String)
    (versionRange : Option String) (rawAnswer : String) : UseTrace :=
  match versionRange with
  | none => ⟨.noChange, false, false, st⟩
  | some r =>
    match defaultVersion with
    | some d =>
      if satisfiesStr d r then ⟨.activated d, false, false, st⟩
      else useScanPhase remoteRaw st r rawAnswer
    | none => useScanPhase remoteRaw st r rawAnswer

/-- The `onFail` policy of a manifest runtime entry. -/
inductive OnFail where
  | download
  | error
  | warn
  | ignore
deriving DecidableEq

/-- `VersionDetectResult` (src/src/detector.ts): a detected range and
its optional failure policy. -/
structure VersionDetectResult where
  versionRange : String
  onFail : Option OnFail
deriving DecidableEq

/-- State of the `.{kind}-version` file in one directory. -/
inductive VFile where
  | absent
  | unreadable
  | content (s : String)
deriving DecidableEq

/-- One entry of the manifest's `devEngines.runtime` field. -/
structure RuntimeEntry where
  name : Option String
  version : Option String
  onFail : Option OnFail
deriving DecidableEq

/-- State of `package.json` in one directory: absent, unreadable,
malformed JSON, or parsed with its `devEngines.runtime` entries
normalised to a list (a single object reads as a one-entry list and an
absent field as the empty list, as the source normalises it). -/
inductive PkgFile where
  | absent
  | unreadable
  | malformed
  | manifest (runtime : List RuntimeEntry)
deriving DecidableEq

/-- Detection inputs of one directory on the walk. -/
structure DirNode where
  vfile : VFile
  pkg : PkgFile
deriving DecidableEq

/-- `Detector.detectByVersionFile`: absent file reads as not found, a
read error propagates, content yields its trimmed text with no
policy. -/
def detectByVersionFile (d : DirNode) : Except Unit (Option VersionDetectResult) :=
  match d.vfile with
  | .absent => .ok none
  | .unreadable => .error ()
  | .content s => .ok (some ⟨jsTrim s, none⟩)

/-- `Detector.detectByPackageJsonFile`: absent file reads as not
found; a read error or `JSON.parse` failure propagates; otherwise the
first `devEngines.runtime` entry named like this kind yields its
`version` with its `onFail` carried through. -/
def detectByPackageJsonFile (kind : String) (d : DirNode) :
    Except Unit (Option VersionDetectResult) :=
  match d.pkg with
  | .absent => .ok none
  | .unreadable => .error ()
  | .malformed => .error ()
  | .manifest entries =>
    match entries.find? (fun r => r.name == some kind) with
    | some matched =>
      match matched.version with
      | some ver => .ok (some ⟨ver, matched.onFail⟩)
      | none => .ok none
    | none => .ok none

/-- The per-lookup `.catch(() => undefined)` of
`Detector.detectVersionRange`. -/
def caught (e : Except Unit (Option VersionDetectResult)) : Option VersionDetectResult :=
  match e with
  | .ok o => o
  | .error _ => none

/-- One directory of `Detector.detectVersionRange`: the version file
lookup, falling back (`??`) to the manifest lookup, each with errors
caught. -/
def lookupDir (kind : String) (d : DirNode) : Option VersionDetectResult :=
  match caught (detectByVersionFile d) with
  | some r => some r
  | none => caught (detectByPackageJsonFile kind d)

/-- `Detector.detectVersionRange` as the upward walk over the chain of
directories (starting directory first, filesystem root last; the
recursion ends when the parent equals the current directory). -/
def detectWalk (kind : String) : List DirNode → Option VersionDetectResult
  | [] => none
  | d :: rest =>
    match lookupDir kind d with
    | some r => some r
    | none => detectWalk kind rest

/-- The errors `alias` raises. -/
inductive AliasError where
  | invalidVersion
  | invalidAliasName
  | notInstalled
deriving DecidableEq

/-- `Runtime.alias` (src/src/runtime.ts lines 260-286): reject a
version that is not valid semver, then an alias name that parses as a
version or range, then a version whose directory is missing; otherwise
(re)point the alias. -/
def aliasModel (st : Store) (aliasName version : String) : Except AliasError Store :=
  if (npmParse version).isNone then .error .invalidVersion
  else if validRangeB aliasName then .error .invalidAliasName
  else if vEntry version ∈ st.versionsDir.getD [] then
    .ok ⟨st.versionsDir, setAlias st.aliases aliasName version⟩
  else .error .notInstalled

/-- Remove every alias binding that targets `v`; also return the
removed names. -/
def removeAliasesTargeting (v : String) : List (String × String) →
    List (String × String) × List String
  | [] => ([], [])
  | (n, t) :: rest =>
    let r := removeAliasesTargeting v rest
    if t = v then (r.1, n :: r.2) else ((n, t) :: r.1, r.2)

/-- The error `uninstall` raises on an invalid version argument. -/
inductive UninstallError where
  | invalidVersion
deriving DecidableEq

/-- Modelled from the spec: `Runtime.uninstall` with its alias cascade
(`cascadeOnUninstall`) — this method is absent from the source files;
only its unit tests and its CLI caller are present.  Per the spec: an
invalid version fails; a version not in the store returns `false`;
otherwise every alias resolving to the version is removed along with
the version directory, and if `default` was among the removed aliases
it is re-pointed to the highest remaining installed version when one
exists, else left absent. -/
def uninstallModel (st : Store) (v : String) : Except UninstallError (Bool × Store) :=
  if (npmParse v).isNone then .error .invalidVersion
  else if vEntry v ∈ st.versionsDir.getD [] then
    let removed := removeAliasesTargeting v st.aliases
    let entries1 := (st.versionsDir.getD []).erase (vEntry v)
    if "default" ∈ removed.2 then
      match getInstalledVersions (some entries1) with
      | [] => .ok (true, ⟨some entries1, removed.1⟩)
      | top :: _ => .ok (true, ⟨some entries1, setAlias removed.1 "default" top⟩)
    else .ok (true, ⟨some entries1, removed.1⟩)
  else .ok (false, st)

/-- Trace of the current `use` revision: outcome, whether the install
prompt was issued, the warnings written, and the resulting store. -/
structure UseCurrentTrace where
  outcome : UseOutcome
  prompted : Bool
  output : List String
  store : Store
deriving DecidableEq

/-- The request handed to the current `use`: auto-detection (with the
Detector's result) or an explicit user range. -/
inductive UseRequest where
  | auto (detected : Option VersionDetectResult)
  | explicitRange (r : String)
deriving DecidableEq

/-- The warning the current `use` writes under `onFail = warn` (as its
unit tests record it). -/
def warnMessage (kind versionRange : String) : String :=
  "No installed " ++ kind ++ " version satisfies " ++ versionRange ++
    ". Run `jrm install " ++ kind ++ "@" ++ versionRange ++ "` to install it.\n"

/-- Remote fallback of the current `use`, after an accepted prompt. -/
def useCurrentRemote (remoteRaw : List String) (st : Store) (versionRange : String) :
    UseCurrentTrace :=
  match (getRemoteVersions remoteRaw).find? (fun rv => satisfiesStr rv versionRange) with
  | some tv => ⟨.activated tv, true, [], (installStep remoteRaw st tv).store⟩
  | none => ⟨.failRemote, true, [], st⟩

/-- Modelled from the spec: the range-handling phase of the current
revision of `Runtime.use` — the revision that consumes
`VersionDetectResult.onFail` is absent from the source files; only its
unit tests and the Detector are present.  Per the spec: the `default`
short-circuit, then the installed scan; when nothing installed
satisfies, a detection-carried `onFail = ignore` terminates silently
with no change, `onFail = warn` emits the recommendation warning and
terminates with no change, and otherwise the install prompt is
issued. -/
def useCurrentScan (kind : String) (remoteRaw : List String) (st : Store)
    (versionRange : String) (onFail : Option OnFail) (fromDetection : Bool)
    (rawAnswer : String) : UseCurrentTrace :=
  match (getInstalledVersions st.versionsDir).find? (fun v => satisfiesStr v versionRange) with
  | some v => ⟨.activated v, false, [], st⟩
  | none =>
    if fromDetection && onFail == some .ignore then ⟨.noChange, false, [], st⟩
    else if fromDetection && onFail == some .warn then
      ⟨.noChange, false, [warnMessage kind versionRange], st⟩
    else if answerIsYes (askStep rawAnswer) then useCurrentRemote remoteRaw st versionRange
    else ⟨.noChange, true, [], st⟩

/-- Modelled from the spec: see `useCurrentScan`; the `default`
short-circuit precedes the installed scan. -/
def useCurrentRange (kind : String) (remoteRaw : List String) (st : Store)
    (defaultVersion : Option String) (versionRange : String) (onFail : Option OnFail)
    (fromDetection : Bool) (rawAnswer : String) : UseCurrentTrace :=
  match defaultVersion with
  | some d =>
    if satisfiesStr d versionRange then ⟨.activated d, false, [], st⟩
    else useCurrentScan kind remoteRaw st versionRange onFail fromDetection rawAnswer
  | none => useCurrentScan kind remoteRaw st versionRange onFail fromDetection rawAnswer

/-- Modelled from the spec: the current `Runtime.use` on an
auto-detection or explicit-range request (the alias branch is outside
the claims' scope). -/
def useCurrent (kind : String) (remoteRaw : List String) (st : Store)
    (defaultVersion : Option String) (request : UseRequest) (rawAnswer : String) :
    UseCurrentTrace :=
  match request with
  | .auto none => ⟨.noChange, false, [], st⟩
  | .auto (some res) =>
    useCurrentRange kind remoteRaw st defaultVersion res.versionRange res.onFail true rawAnswer
  | .explicitRange r =>
    useCurrentRange kind remoteRaw st defaultVersion r none false rawAnswer

/-! ### Order-theoretic facts about the comparators -/

theorem natCmp_eq_eq {a b : Nat} : natCmp a b = .eq ↔ a = b := by
  unfold natCmp
  split_ifs <;> constructor <;> intro h <;> first | rfl | omega | simp_all

theorem natCmp_eq_lt {a b : Nat} : natCmp a b = .lt ↔ a < b := by
  unfold natCmp
  split_ifs <;> constructor <;> intro h <;> first | rfl | omega | simp_all

theorem natCmp_eq_gt {a b : Nat} : natCmp a b = .gt ↔ b < a := by
  unfold natCmp
  split_ifs <;> constructor <;> intro h <;> first | rfl | omega | simp_all

theorem cmpSymm {α : Type} (cmp : α → α → Ordering) [Batteries.OrientedCmp cmp]
    (x y : α) : (cmp x y).swap = cmp y x :=
  Batteries.OrientedCmp.symm x y

theorem cmpEqGt {α : Type} (cmp : α → α → Ordering) [Batteries.OrientedCmp cmp]
    {x y : α} : cmp x y = .gt ↔ cmp y x = .lt :=
  Batteries.OrientedCmp.cmp_eq_gt

theorem cmpRefl {α : Type} (cmp : α → α → Ordering) [Batteries.OrientedCmp cmp]
    (x : α) : cmp x x = .eq :=
  Batteries.OrientedCmp.cmp_refl

theorem cmpCongrLeft {α : Type} (cmp : α → α → Ordering) [Batteries.TransCmp cmp]
    {x y z : α} (h : cmp x y = .eq) : cmp x z = cmp y z :=
  Batteries.TransCmp.cmp_congr_left h

theorem cmpCongrRight {α : Type} (cmp : α → α → Ordering) [Batteries.TransCmp cmp]
    {x y z : α} (h : cmp y z = .eq) : cmp x y = cmp x z :=
  Batteries.TransCmp.cmp_congr_right h

theorem cmpLtTrans {α : Type} (cmp : α → α → Ordering) [Batteries.TransCmp cmp]
    {x y z : α} (h1 : cmp x y = .lt) (h2 : cmp y z = .lt) : cmp x z = .lt :=
  Batteries.TransCmp.lt_trans h1 h2

theorem cmpLeTrans {α : Type} (cmp : α → α → Ordering) [Batteries.TransCmp cmp]
    {x y z : α} (h1 : cmp x y ≠ .gt) (h2 : cmp y z ≠ .gt) : cmp x z ≠ .gt :=
  Batteries.TransCmp.le_trans h1 h2

theorem cmpGeTrans {α : Type} (cmp : α → α → Ordering) [Batteries.TransCmp cmp]
    {x y z : α} (h1 : cmp x y ≠ .lt) (h2 : cmp y z ≠ .lt) : cmp x z ≠ .lt :=
  Batteries.TransCmp.ge_trans h1 h2

instance : Batteries.TransCmp natCmp where
  symm x y := by
    unfold natCmp
    split_ifs <;> first | rfl | omega
  le_trans {x y z} h1 h2 := by
    unfold natCmp at *
    split_ifs at * <;> simp_all <;> omega

theorem charCmp_ne_gt_iff {c d : Char} : charCmp c d ≠ .gt ↔ c.toNat ≤ d.toNat := by
  unfold charCmp
  split_ifs with h
  · subst h; simp
  · simp only [Ne, natCmp_eq_gt]; omega

instance : Batteries.TransCmp charCmp where
  symm c d := by
    by_cases h : c = d
    · subst h
      simp only [charCmp, if_pos rfl]
      rfl
    · have h' : ¬d = c := fun hh => h hh.symm
      simp only [charCmp, if_neg h, if_neg h']
      exact cmpSymm natCmp c.toNat d.toNat
  le_trans {x y z} h1 h2 := by
    rw [charCmp_ne_gt_iff] at *
    omega

theorem compareCharList_le_trans :
    ∀ {a b c : List Char}, compareCharList a b ≠ .gt → compareCharList b c ≠ .gt →
      compareCharList a c ≠ .gt
  | [], b, c => by
    intro _ _
    cases c <;> simp [compareCharList]
  | _ :: _, [], _ => by
    intro h1 _
    exact absurd rfl h1
  | _ :: _, _ :: _, [] => by
    intro _ h2
    exact absurd rfl h2
  | x :: xs, y :: ys, z :: zs => by
    intro h1 h2
    simp only [compareCharList] at *
    rcases hxy : charCmp x y with _ | _ | _ <;> rw [hxy] at h1 <;>
      rcases hyz : charCmp y z with _ | _ | _ <;> rw [hyz] at h2
    · rw [cmpLtTrans charCmp hxy hyz]
      simp
    · rw [(cmpCongrRight charCmp hyz).symm.trans hxy]
      simp
    · exact absurd rfl h2
    · rw [(cmpCongrLeft charCmp hxy).trans hyz]
      simp
    · rw [(cmpCongrLeft charCmp hxy).trans hyz]
      exact compareCharList_le_trans h1 h2
    · exact absurd rfl h2
    · exact absurd rfl h1
    · exact absurd rfl h1
    · exact absurd rfl h1

instance : Batteries.TransCmp compareCharList where
  symm a b := by
    induction a generalizing b with
    | nil => cases b <;> rfl
    | cons x xs ih =>
      cases b with
      | nil => rfl
      | cons y ys =>
        simp only [compareCharList]
        rcases hxy : charCmp x y with _ | _ | _ <;>
          rw [← cmpSymm charCmp x y, hxy]
        · rfl
        · exact ih ys
        · rfl
  le_trans h1 h2 := compareCharList_le_trans h1 h2

instance : Batteries.TransCmp compareIdent where
  symm a b := by
    unfold compareIdent
    rcases parseNatStrict a.data with _ | x <;> rcases parseNatStrict b.data with _ | y
    · exact cmpSymm compareCharList a.data b.data
    · rfl
    · rfl
    · exact cmpSymm natCmp x y
  le_trans {a b c} h1 h2 := by
    unfold compareIdent at *
    rcases ha : parseNatStrict a.data with _ | x <;>
      rcases hb : parseNatStrict b.data with _ | y <;>
      rcases hc : parseNatStrict c.data with _ | z <;>
      simp only [ha, hb, hc] at h1 h2 ⊢
    · exact cmpLeTrans compareCharList h1 h2
    · exact absurd rfl h2
    · exact absurd rfl h1
    · exact absurd rfl h1
    · simp
    · exact absurd rfl h2
    · simp
    · exact cmpLeTrans natCmp h1 h2

theorem comparePre_le_trans :
    ∀ {a b c : List String}, comparePre a b ≠ .gt → comparePre b c ≠ .gt →
      comparePre a c ≠ .gt
  | [], b, c => by
    intro _ _
    cases c <;> simp [comparePre]
  | _ :: _, [], _ => by
    intro h1 _
    exact absurd rfl h1
  | _ :: _, _ :: _, [] => by
    intro _ h2
    exact absurd rfl h2
  | x :: xs, y :: ys, z :: zs => by
    intro h1 h2
    simp only [comparePre] at *
    rcases hxy : compareIdent x y with _ | _ | _ <;> rw [hxy] at h1 <;>
      rcases hyz : compareIdent y z with _ | _ | _ <;> rw [hyz] at h2
    · rw [cmpLtTrans compareIdent hxy hyz]
      simp
    · rw [(cmpCongrRight compareIdent hyz).symm.trans hxy]
      simp
    · exact absurd rfl h2
    · rw [(cmpCongrLeft compareIdent hxy).trans hyz]
      simp
    · rw [(cmpCongrLeft compareIdent hxy).trans hyz]
      exact comparePre_le_trans h1 h2
    · exact absurd rfl h2
    · exact absurd rfl h1
    · exact absurd rfl h1
    · exact absurd rfl h1

instance : Batteries.TransCmp comparePre where
  symm a b := by
    induction a generalizing b with
    | nil => cases b <;> rfl
    | cons x xs ih =>
      cases b with
      | nil => rfl
      | cons y ys =>
        simp only [comparePre]
        rcases hxy : compareIdent x y with _ | _ | _ <;>
          rw [← cmpSymm compareIdent x y, hxy]
        · rfl
        · exact ih ys
        · rfl
  le_trans h1 h2 := comparePre_le_trans h1 h2

instance : Batteries.TransCmp preListCmp where
  symm a b := by
    rcases a with _ | ⟨x, xs⟩ <;> rcases b with _ | ⟨y, ys⟩
    · rfl
    · rfl
    · rfl
    · exact cmpSymm comparePre (x :: xs) (y :: ys)
  le_trans {a b c} h1 h2 := by
    rcases a with _ | ⟨x, xs⟩ <;> rcases b with _ | ⟨y, ys⟩ <;> rcases c with _ | ⟨z, zs⟩
    · simp [preListCmp]
    · exact absurd rfl h2
    · exact absurd rfl h1
    · exact absurd rfl h1
    · simp [preListCmp]
    · exact absurd rfl h2
    · simp [preListCmp]
    · exact cmpLeTrans comparePre h1 h2

theorem then_le_trans {a1 a2 a3 b1 b2 b3 : Ordering}
    (hcl : a1 = .eq → a3 = a2) (hcr : a2 = .eq → a3 = a1)
    (hlt : a1 = .lt → a2 = .lt → a3 = .lt)
    (hb : b1 ≠ .gt → b2 ≠ .gt → b3 ≠ .gt)
    (h1 : a1.then b1 ≠ .gt) (h2 : a2.then b2 ≠ .gt) : a3.then b3 ≠ .gt := by
  cases a1 <;> cases a2
  · rw [hlt rfl rfl]
    simp [Ordering.then_eq_gt]
  · rw [hcr rfl]
    simp [Ordering.then_eq_gt]
  · exact absurd rfl h2
  · rw [hcl rfl]
    simp [Ordering.then_eq_gt]
  · rw [hcl rfl]
    exact hb h1 h2
  · exact absurd rfl h2
  · exact absurd rfl h1
  · exact absurd rfl h1
  · exact absurd rfl h1

instance : Batteries.TransCmp semverCmp where
  symm x y := by
    unfold semverCmp
    rw [Ordering.swap_then, Ordering.swap_then, Ordering.swap_then,
      cmpSymm natCmp, cmpSymm natCmp,
      cmpSymm natCmp,
      cmpSymm preListCmp]
  le_trans {x y z} h1 h2 := by
    unfold semverCmp at *
    refine then_le_trans ?_ ?_ ?_ ?_ h1 h2
    · intro h
      exact cmpCongrLeft natCmp h
    · intro h
      exact (cmpCongrRight natCmp h).symm
    · exact cmpLtTrans natCmp
    · intro g1 g2
      refine then_le_trans ?_ ?_ ?_ ?_ g1 g2
      · intro h
        exact cmpCongrLeft natCmp h
      · intro h
        exact (cmpCongrRight natCmp h).symm
      · exact cmpLtTrans natCmp
      · intro k1 k2
        refine then_le_trans ?_ ?_ ?_ ?_ k1 k2
        · intro h
          exact cmpCongrLeft natCmp h
        · intro h
          exact (cmpCongrRight natCmp h).symm
        · exact cmpLtTrans natCmp
        · exact cmpLeTrans preListCmp

instance : Batteries.TransCmp npmCompareStr where
  symm x y := by
    unfold npmCompareStr
    rcases hx : npmParse x with _ | a <;> rcases hy : npmParse y with _ | b
    · rfl
    · rfl
    · rfl
    · exact cmpSymm semverCmp a b
  le_trans {x y z} h1 h2 := by
    unfold npmCompareStr at *
    rcases hx : npmParse x with _ | a <;> rcases hy : npmParse y with _ | b <;>
      rcases hz : npmParse z with _ | c <;>
      simp only [hx, hy, hz] at h1 h2 ⊢ <;>
      first
        | decide
        | exact absurd rfl h1
        | exact absurd rfl h2
        | exact cmpLeTrans semverCmp h1 h2

/-! ### Sorting and membership facts -/

/-- The descending order the program's sorts establish. -/
def SemVerGE (x y : String) : Prop := npmCompareStr x y ≠ .lt

theorem mem_insertByDesc {c a : String} :
    ∀ {l : List String}, c ∈ insertByDesc a l ↔ c = a ∨ c ∈ l
  | [] => by simp [insertByDesc]
  | b :: t => by
    simp only [insertByDesc]
    rcases npmCompareStr a b with _ | _ | _
    · show c ∈ b :: insertByDesc a t ↔ _
      rw [List.mem_cons, mem_insertByDesc (l := t), List.mem_cons]
      tauto
    · show c ∈ a :: b :: t ↔ _
      simp only [List.mem_cons]
    · show c ∈ a :: b :: t ↔ _
      simp only [List.mem_cons]

theorem mem_sortDescBy {c : String} : ∀ {l : List String}, c ∈ sortDescBy l ↔ c ∈ l
  | [] => Iff.rfl
  | b :: t => by
    show c ∈ insertByDesc b (sortDescBy t) ↔ _
    rw [mem_insertByDesc, mem_sortDescBy (l := t), List.mem_cons]

theorem pairwise_insertByDesc {a : String} :
    ∀ {l : List String}, l.Pairwise SemVerGE → (insertByDesc a l).Pairwise SemVerGE
  | [] => fun _ => List.pairwise_singleton _ _
  | b :: t => by
    intro hp
    rw [List.pairwise_cons] at hp
    simp only [insertByDesc]
    rcases hab : npmCompareStr a b with _ | _ | _
    · show (b :: insertByDesc a t).Pairwise SemVerGE
      rw [List.pairwise_cons]
      refine ⟨fun c hc => ?_, pairwise_insertByDesc hp.2⟩
      rw [mem_insertByDesc] at hc
      rcases hc with rfl | hc
      · intro hba
        exact absurd ((cmpEqGt npmCompareStr).mpr hba) (by rw [hab]; simp)
      · exact hp.1 c hc
    · show (a :: b :: t).Pairwise SemVerGE
      rw [List.pairwise_cons]
      refine ⟨fun c hc => ?_, List.pairwise_cons.mpr hp⟩
      rcases List.mem_cons.mp hc with rfl | hc
      · rw [SemVerGE, hab]
        simp
      · exact cmpGeTrans npmCompareStr (by rw [hab]; simp)
          (hp.1 c hc)
    · show (a :: b :: t).Pairwise SemVerGE
      rw [List.pairwise_cons]
      refine ⟨fun c hc => ?_, List.pairwise_cons.mpr hp⟩
      rcases List.mem_cons.mp hc with rfl | hc
      · rw [SemVerGE, hab]
        simp
      · exact cmpGeTrans npmCompareStr (by rw [hab]; simp)
          (hp.1 c hc)

theorem pairwise_sortDescBy : ∀ {l : List String}, (sortDescBy l).Pairwise SemVerGE
  | [] => List.Pairwise.nil
  | _ :: t => pairwise_insertByDesc (pairwise_sortDescBy (l := t))

theorem find?_pairwise_max {p : String → Bool} {v : String} :
    ∀ {l : List String}, l.Pairwise SemVerGE → l.find? p = some v →
      ∀ w ∈ l, p w = true → SemVerGE v w
  | [], _, hf => by simp at hf
  | a :: t, hp, hf => by
    rw [List.pairwise_cons] at hp
    by_cases ha : p a
    · rw [List.find?_cons_of_pos _ ha] at hf
      cases hf
      intro w hw _
      rcases List.mem_cons.mp hw with rfl | hw
      · intro hlt
        rw [cmpRefl npmCompareStr] at hlt
        cases hlt
      · exact hp.1 w hw
    · rw [List.find?_cons_of_neg _ ha] at hf
      intro w hw hpw
      rcases List.mem_cons.mp hw with rfl | hw
      · exact absurd hpw (by simpa using ha)
      · exact find?_pairwise_max hp.2 hf w hw hpw

theorem pairwise_head_max {l : List String} (hp : l.Pairwise SemVerGE) {top : String}
    (h : l.head? = some top) : ∀ w ∈ l, SemVerGE top w := by
  cases l with
  | nil => cases h
  | cons a t =>
    obtain rfl : a = top := by injection h
    rw [List.pairwise_cons] at hp
    intro w hw
    rcases List.mem_cons.mp hw with rfl | hw
    · intro hlt
      rw [cmpRefl npmCompareStr] at hlt
      cases hlt
    · exact hp.1 w hw

theorem startsWithV_vEntry (v : String) : startsWithV (vEntry v) = true := by
  simp [startsWithV, vEntry]

theorem strDrop1_vEntry (v : String) : strDrop1 (vEntry v) = v := rfl

theorem eq_vEntry_of {e w : String} (h1 : startsWithV e = true) (h2 : strDrop1 e = w) :
    e = vEntry w := by
  rcases e with ⟨cs⟩
  cases cs with
  | nil => simp [startsWithV] at h1
  | cons c rest =>
    have hc : c = 'v' := by simpa [startsWithV] using h1
    subst hc
    rw [← h2]
    rfl

theorem mem_getInstalledVersions {l : List String} {w : String} :
    w ∈ getInstalledVersions (some l) ↔ vEntry w ∈ l ∧ (npmParse w).isSome := by
  unfold getInstalledVersions
  rw [mem_sortDescBy]
  simp only [Option.getD_some, List.mem_filter, List.mem_map]
  constructor
  · rintro ⟨⟨e, ⟨he, hsw⟩, hdrop⟩, hparse⟩
    exact ⟨eq_vEntry_of hsw hdrop ▸ he, hparse⟩
  · rintro ⟨hin, hparse⟩
    exact ⟨⟨vEntry w, ⟨hin, startsWithV_vEntry w⟩, strDrop1_vEntry w⟩, hparse⟩

theorem pairwise_getInstalledVersions (entries : Option (List String)) :
    (getInstalledVersions entries).Pairwise SemVerGE :=
  pairwise_sortDescBy

theorem mem_getRemoteVersions {raw : List String} {x : String} :
    x ∈ getRemoteVersions raw ↔
      (∃ y ∈ raw, stripLeadingV y = x) ∧ ∃ sv, npmParse x = some sv ∧ sv.pre = [] := by
  unfold getRemoteVersions
  rw [mem_sortDescBy]
  simp only [List.mem_filter, List.mem_map]
  constructor
  · rintro ⟨⟨y, hy, hstrip⟩, hpred⟩
    refine ⟨⟨y, hy, hstrip⟩, ?_⟩
    rcases hx : npmParse x with _ | sv
    · rw [hx] at hpred
      cases hpred
    · rw [hx] at hpred
      exact ⟨sv, rfl, by simpa using hpred⟩
  · rintro ⟨⟨y, hy, hstrip⟩, sv, hx, hpre⟩
    refine ⟨⟨y, hy, hstrip⟩, ?_⟩
    rw [hx]
    show sv.pre.isEmpty = true
    rw [hpre]
    rfl

theorem pairwise_getRemoteVersions (raw : List String) :
    (getRemoteVersions raw).Pairwise SemVerGE :=
  pairwise_sortDescBy

theorem removeAliasesTargeting_fst {v : String} :
    ∀ {l : List (String × String)} {p : String × String},
      p ∈ (removeAliasesTargeting v l).1 → p ∈ l ∧ p.2 ≠ v
  | [], p => by simp [removeAliasesTargeting]
  | (n, t) :: rest, p => by
    simp only [removeAliasesTargeting]
    by_cases ht : t = v
    · rw [if_pos ht]
      intro h
      have := removeAliasesTargeting_fst (l := rest) h
      exact ⟨List.mem_cons_of_mem _ this.1, this.2⟩
    · rw [if_neg ht]
      intro h
      rcases List.mem_cons.mp h with rfl | h
      · exact ⟨List.mem_cons_self _ _, ht⟩
      · have := removeAliasesTargeting_fst (l := rest) h
        exact ⟨List.mem_cons_of_mem _ this.1, this.2⟩

theorem removeAliasesTargeting_snd {v n : String} :
    ∀ {l : List (String × String)},
      n ∈ (removeAliasesTargeting v l).2 ↔ (n, v) ∈ l
  | [] => by simp [removeAliasesTargeting]
  | (m, t) :: rest => by
    simp only [removeAliasesTargeting]
    by_cases ht : t = v
    · subst ht
      rw [if_pos rfl]
      simp only [List.mem_cons, removeAliasesTargeting_snd (l := rest)]
      constructor
      · rintro (rfl | h)
        · exact .inl rfl
        · exact .inr h
      · rintro (h | h)
        · exact .inl (congrArg Prod.fst h)
        · exact .inr h
    · rw [if_neg ht]
      rw [removeAliasesTargeting_snd (l := rest), List.mem_cons]
      constructor
      · exact .inr
      · rintro (h | h)
        · cases h
          exact absurd rfl ht
        · exact h

theorem mem_setAlias {al : List (String × String)} {name target : String}
    {p : String × String} :
    p ∈ setAlias al name target ↔ p = (name, target) ∨ (p ∈ al ∧ p.1 ≠ name) := by
  unfold setAlias
  rw [List.mem_cons, List.mem_filter]
  simp [bne_iff_ne]

/-! ### The claims -/

/-- C3: for every resolved range in `use`, a `default` alias whose
version satisfies the range is (re)activated and returned — even when a
higher installed version also satisfies it (the result is the default
for every store contents); otherwise the first (highest) satisfying
entry of the descending installed list is activated and returned when
one exists, and it is maximal among the satisfying installed versions;
and a version outside the installed set is never selected unless no
installed version satisfies the range. -/
theorem claim_C3_use_selection (remoteRaw : List String) (st : Store)
    (defaultVersion : Option String) (r rawAnswer : String) :
    (∀ d, defaultVersion = some d → satisfiesStr d r = true →
      useResolve remoteRaw st defaultVersion (some r) rawAnswer =
        ⟨.activated d, false, false, st⟩) ∧
    ((∀ d, defaultVersion = some d → satisfiesStr d r = false) →
      ∀ v, (getInstalledVersions st.versionsDir).find? (fun x => satisfiesStr x r) = some v →
        useResolve remoteRaw st defaultVersion (some r) rawAnswer =
          ⟨.activated v, false, false, st⟩ ∧
        ∀ w ∈ getInstalledVersions st.versionsDir, satisfiesStr w r = true → SemVerGE v w) ∧
    ((∀ d, defaultVersion = some d → d ∈ getInstalledVersions st.versionsDir) →
      (∃ w ∈ getInstalledVersions st.versionsDir, satisfiesStr w r = true) →
      ∀ v, (useResolve remoteRaw st defaultVersion (some r) rawAnswer).outcome = .activated v →
        v ∈ getInstalledVersions st.versionsDir) := by
  have scanMem : ∀ v, (useScanPhase remoteRaw st r rawAnswer).outcome = .activated v →
      (∃ w ∈ getInstalledVersions st.versionsDir, satisfiesStr w r = true) →
      v ∈ getInstalledVersions st.versionsDir := by
    intro v hv hex
    unfold useScanPhase at hv
    cases hfind : (getInstalledVersions st.versionsDir).find? (fun x => satisfiesStr x r) with
    | some u =>
      rw [hfind] at hv
      cases hv
      exact List.mem_of_find?_eq_some hfind
    | none =>
      exfalso
      rw [List.find?_eq_none] at hfind
      rcases hex with ⟨w0, hw0, hsat0⟩
      exact hfind w0 hw0 hsat0
  refine ⟨?_, ?_, ?_⟩
  · intro d hd hsat
    simp only [useResolve, hd]
    rw [if_pos hsat]
  · intro hd v hf
    have hscan : useScanPhase remoteRaw st r rawAnswer = ⟨.activated v, false, false, st⟩ := by
      unfold useScanPhase
      rw [hf]
    refine ⟨?_, fun w hw hsat =>
      find?_pairwise_max (pairwise_getInstalledVersions _) hf w hw hsat⟩
    cases hdv : defaultVersion with
    | none =>
      simp only [useResolve, hdv]
      exact hscan
    | some d =>
      simp only [useResolve, hdv]
      rw [if_neg (by simp [hd d hdv])]
      exact hscan
  · intro hdc hex v hout
    cases hdv : defaultVersion with
    | some d =>
      simp only [useResolve, hdv] at hout
      by_cases hds : satisfiesStr d r = true
      · rw [if_pos hds] at hout
        cases hout
        exact hdc _ hdv
      · rw [if_neg hds] at hout
        exact scanMem v hout hex
    | none =>
      simp only [useResolve, hdv] at hout
      exact scanMem v hout hex

/-- C3 witness: with `v2.1.0` and `v2.0.0` installed and `default` at
`2.0.0`, `use("^2.0.0")` returns the default `2.0.0` although `2.1.0`
also satisfies; with a non-satisfying default, `use("^2.0.0")` returns
the highest satisfying installed version `2.1.0`. -/
theorem claim_C3_use_selection_witness :
    useResolve [] ⟨some ["v2.1.0", "v2.0.0"], []⟩ (some "2.0.0") (some "^2.0.0") "" =
      ⟨.activated "2.0.0", false, false, ⟨some ["v2.1.0", "v2.0.0"], []⟩⟩ ∧
    useResolve [] ⟨some ["v2.1.0", "v2.0.0"], []⟩ (some "1.0.0") (some "^2.0.0") "" =
      ⟨.activated "2.1.0", false, false, ⟨some ["v2.1.0", "v2.0.0"], []⟩⟩ := by
  constructor
  · exact (claim_C3_use_selection [] _ (some "2.0.0") "^2.0.0" "").1 "2.0.0" rfl (by decide)
  · refine (((claim_C3_use_selection [] _ (some "1.0.0") "^2.0.0" "").2.1 ?_ "2.1.0"
      (by decide)).1)
    intro d hd
    cases hd
    decide

/-- C9: for every valid exact semver `v` (in canonical form) whose
directory `v<v>` is already present in the store, `install v` returns
`false` without running `installRaw` and without fetching the remote
version list, and leaves the versions directory and the aliases
unchanged. -/
theorem claim_C9_install_idempotent (remoteRaw : List String) (st : Store)
    (v : String) (sv : SemVer) (l : List String)
    (hp : npmParse v = some sv) (hr : renderSemVer sv = v)
    (hl : st.versionsDir = some l) (hin : vEntry v ∈ l) :
    installStep remoteRaw st v = ⟨.already, false, false, st⟩ := by
  have hmem : v ∈ getInstalledVersions (some l) :=
    mem_getInstalledVersions.mpr ⟨hin, by rw [hp]; rfl⟩
  simp only [installStep, hp]
  simp only [installResolved, hl, Option.getD_some, hr]
  rw [if_pos hmem, ← hl]

/-- C9 witness: installing `2.0.0` when `v2.0.0` is already present
returns `false` and changes nothing, without consulting the remote
list. -/
theorem claim_C9_install_idempotent_witness :
    installStep ["v3.0.0"] ⟨some ["v2.0.0"], [("default", "2.0.0")]⟩ "2.0.0" =
      ⟨.already, false, false, ⟨some ["v2.0.0"], [("default", "2.0.0")]⟩⟩ :=
  claim_C9_install_idempotent ["v3.0.0"] _ "2.0.0" ⟨2, 0, 0, []⟩ ["v2.0.0"]
    (by decide) (by decide) rfl (by decide)

theorem answerIsYes_iff (a : String) :
    answerIsYes a = true ↔ (jsToLower a = "y" ∨ jsToLower a = "yes") := by
  unfold answerIsYes
  constructor
  · intro h
    rcases hyq : jsToLower a == "y" with _ | _
    · rcases hyes : jsToLower a == "yes" with _ | _
      · exfalso
        revert h
        simp only [List.contains, List.elem, hyq, hyes]
        decide
      · exact .inr (by simpa using hyes)
    · exact .inl (by simpa using hyq)
  · rintro (h | h) <;> simp [List.contains, List.elem, h]

/-- C10: when no installed version satisfies the range, `use` issues
the install prompt; installation proceeds (the remote-install flow
runs) exactly when the prompt answer, trimmed and lowercased, equals
`y` or `yes`; for every other answer `use` terminates with no change
and an unchanged store. -/
theorem claim_C10_prompt_answer (remoteRaw : List String) (st : Store)
    (defaultVersion : Option String) (r rawAnswer : String)
    (hd : ∀ d, defaultVersion = some d → satisfiesStr d r = false)
    (hscan : (getInstalledVersions st.versionsDir).find? (fun x => satisfiesStr x r) = none) :
    (useResolve remoteRaw st defaultVersion (some r) rawAnswer).prompted = true ∧
    (answerIsYes (askStep rawAnswer) = false →
      useResolve remoteRaw st defaultVersion (some r) rawAnswer =
        ⟨.noChange, true, false, st⟩) ∧
    (answerIsYes (askStep rawAnswer) = true →
      useResolve remoteRaw st defaultVersion (some r) rawAnswer =
        useRemotePhase remoteRaw st r) ∧
    (∀ a : String, answerIsYes (askStep a) = true ↔
      (jsToLower (jsTrim a) = "y" ∨ jsToLower (jsTrim a) = "yes")) := by
  have hreduce : useResolve remoteRaw st defaultVersion (some r) rawAnswer =
      useScanPhase remoteRaw st r rawAnswer := by
    cases hdv : defaultVersion with
    | none => simp only [useResolve, hdv]
    | some d =>
      simp only [useResolve, hdv]
      rw [if_neg (by simp [hd d hdv])]
  have hscanPhase : useScanPhase remoteRaw st r rawAnswer =
      (if answerIsYes (askStep rawAnswer) then useRemotePhase remoteRaw st r
       else ⟨.noChange, true, false, st⟩) := by
    unfold useScanPhase
    rw [hscan]
  rw [hreduce, hscanPhase]
  refine ⟨?_, ?_, ?_, fun a => answerIsYes_iff (askStep a)⟩
  · by_cases hy : answerIsYes (askStep rawAnswer) = true
    · rw [if_pos hy]
      unfold useRemotePhase
      cases (getRemoteVersions remoteRaw).find? (fun rv => satisfiesStr rv r) <;> rfl
    · rw [if_neg hy]
  · intro hy
    rw [if_neg (by simp [hy])]
  · intro hy
    rw [if_pos hy]

/-- C10 witness: with `v1.0.0` installed and range `^3.0.0`, the empty
answer (plain Enter) declines — no change, unchanged store — while
`" YES "` trims and lowercases to `yes` and proceeds to the
remote-install flow. -/
theorem claim_C10_prompt_answer_witness :
    useResolve ["3.0.0"] ⟨some ["v1.0.0"], []⟩ none (some "^3.0.0") "" =
      ⟨.noChange, true, false, ⟨some ["v1.0.0"], []⟩⟩ ∧
    useResolve ["3.0.0"] ⟨some ["v1.0.0"], []⟩ none (some "^3.0.0") " YES " =
      useRemotePhase ["3.0.0"] ⟨some ["v1.0.0"], []⟩ "^3.0.0" := by
  constructor
  · exact (claim_C10_prompt_answer ["3.0.0"] _ none "^3.0.0" ""
      (by intro d hd; cases hd) (by decide)).2.1 (by decide)
  · exact (claim_C10_prompt_answer ["3.0.0"] _ none "^3.0.0" " YES "
      (by intro d hd; cases hd) (by decide)).2.2.1 (by decide)

/-- C6: when `install` is given a range that is not an exact valid
semver, the remote candidates are normalised (one leading `v` stripped,
prereleases dropped) and sorted descending; the first candidate
satisfying the range is installed (`installRaw` runs) when it is not
already present, and the absence of any satisfying candidate is the
fatal `No remote version satisfies`; over candidates
`[3.0.0-beta.1, 2.1.0, 2.0.0, 1.5.0]`, `install("^2.0.0")` installs
`2.1.0` and, being the first installed version, seeds `default`. -/
theorem claim_C6_install_range (remoteRaw : List String) (st : Store) (range : String)
    (hr : npmParse range = none) :
    (∀ x, x ∈ getRemoteVersions remoteRaw ↔
      (∃ y ∈ remoteRaw, stripLeadingV y = x) ∧ ∃ sv, npmParse x = some sv ∧ sv.pre = []) ∧
    (getRemoteVersions remoteRaw).Pairwise SemVerGE ∧
    (∀ tv, (getRemoteVersions remoteRaw).find? (fun rv => satisfiesStr rv range) = some tv →
      tv ∉ getInstalledVersions (some (st.versionsDir.getD [])) →
      (installStep remoteRaw st range).outcome = .ok tv ∧
      (installStep remoteRaw st range).ranInstallRaw = true) ∧
    ((getRemoteVersions remoteRaw).find? (fun rv => satisfiesStr rv range) = none →
      installStep remoteRaw st range = ⟨.fail, true, false, st⟩) ∧
    installStep ["3.0.0-beta.1", "2.1.0", "2.0.0", "1.5.0"] ⟨some [], []⟩ "^2.0.0" =
      ⟨.ok "2.1.0", true, true, ⟨some ["v2.1.0"], [("default", "2.1.0")]⟩⟩ := by
  refine ⟨fun x => mem_getRemoteVersions, pairwise_getRemoteVersions remoteRaw, ?_, ?_,
    by decide⟩
  · intro tv hf hnin
    simp only [installStep, hr, hf]
    simp only [installResolved]
    rw [if_neg hnin]
    split <;> exact ⟨rfl, rfl⟩
  · intro hf
    simp only [installStep, hr, hf]

/-- C6 witness: the hypotheses hold concretely — `^2.0.0` picks
`2.1.0` among the normalised candidates, and `^9.0.0` over candidate
`1.0.0` fails fatally. -/
theorem claim_C6_install_range_witness :
    (installStep ["3.0.0-beta.1", "2.1.0", "2.0.0", "1.5.0"] ⟨some [], []⟩ "^2.0.0").outcome =
      .ok "2.1.0" ∧
    installStep ["1.0.0"] ⟨some [], []⟩ "^9.0.0" = ⟨.fail, true, false, ⟨some [], []⟩⟩ := by
  constructor
  · exact ((claim_C6_install_range ["3.0.0-beta.1", "2.1.0", "2.0.0", "1.5.0"] ⟨some [], []⟩
      "^2.0.0" (by decide)).2.2.1 "2.1.0" (by decide) (by decide)).1
  · exact (claim_C6_install_range ["1.0.0"] ⟨some [], []⟩ "^9.0.0"
      (by decide)).2.2.2.1 (by decide)

/-- C7: `alias(name, version)` fails with InvalidVersion whenever the
version is not valid semver; with a valid version it fails with
InvalidAliasName whenever the name parses as a version or range; with a
valid version and a non-range name it fails with NotInstalled when the
version's directory is absent, and otherwise (re)points the alias. -/
theorem claim_C7_alias_validation (st : Store) (aliasName version : String) :
    ((npmParse version).isNone = true →
      aliasModel st aliasName version = .error .invalidVersion) ∧
    ((npmParse version).isNone = false → validRangeB aliasName = true →
      aliasModel st aliasName version = .error .invalidAliasName) ∧
    ((npmParse version).isNone = false → validRangeB aliasName = false →
      vEntry version ∉ st.versionsDir.getD [] →
      aliasModel st aliasName version = .error .notInstalled) ∧
    ((npmParse version).isNone = false → validRangeB aliasName = false →
      vEntry version ∈ st.versionsDir.getD [] →
      aliasModel st aliasName version =
        .ok ⟨st.versionsDir, setAlias st.aliases aliasName version⟩) := by
  refine ⟨?_, ?_, ?_, ?_⟩
  · intro h1
    unfold aliasModel
    rw [if_pos h1]
  · intro h1 h2
    unfold aliasModel
    rw [if_neg (by simp [h1]), if_pos h2]
  · intro h1 h2 h3
    unfold aliasModel
    rw [if_neg (by simp [h1]), if_neg (by simp [h2]), if_neg h3]
  · intro h1 h2 h3
    unfold aliasModel
    rw [if_neg (by simp [h1]), if_neg (by simp [h2]), if_pos h3]

/-- C7 witness: `alias` rejects version `abc` as InvalidVersion, names
`^2.0.0` and `18.0.0` as InvalidAliasName, a missing `2.0.0` as
NotInstalled, and binds `lts` to an installed `2.0.0`. -/
theorem claim_C7_alias_validation_witness :
    aliasModel ⟨some [], []⟩ "lts" "abc" = .error .invalidVersion ∧
    aliasModel ⟨some ["v2.0.0"], []⟩ "^2.0.0" "2.0.0" = .error .invalidAliasName ∧
    aliasModel ⟨some ["v2.0.0"], []⟩ "18.0.0" "2.0.0" = .error .invalidAliasName ∧
    aliasModel ⟨some [], []⟩ "lts" "2.0.0" = .error .notInstalled ∧
    aliasModel ⟨some ["v2.0.0"], []⟩ "lts" "2.0.0" =
      .ok ⟨some ["v2.0.0"], setAlias [] "lts" "2.0.0"⟩ :=
  ⟨(claim_C7_alias_validation _ "lts" "abc").1 (by decide),
   (claim_C7_alias_validation _ "^2.0.0" "2.0.0").2.1 (by decide) (by decide),
   (claim_C7_alias_validation _ "18.0.0" "2.0.0").2.1 (by decide) (by decide),
   (claim_C7_alias_validation _ "lts" "2.0.0").2.2.1 (by decide) (by decide) (by decide),
   (claim_C7_alias_validation _ "lts" "2.0.0").2.2.2 (by decide) (by decide) (by decide)⟩

/-- C8 (amended): `listInstalled` returns the empty sequence when the
versions directory is missing; includes exactly the entries of the
form `v<s>` where `s` is accepted by npm-semver validity — which trims
whitespace and tolerates one further leading `v`, so it is slightly
wider than strict semver; and orders the result descending by semver
precedence, so `10.0.0` precedes `9.0.0`. -/
theorem claim_C8_list_installed :
    getInstalledVersions none = [] ∧
    (∀ (l : List String) (w : String),
      w ∈ getInstalledVersions (some l) ↔ vEntry w ∈ l ∧ (npmParse w).isSome) ∧
    (∀ entries : Option (List String), (getInstalledVersions entries).Pairwise SemVerGE) ∧
    getInstalledVersions (some ["v9.0.0", "v10.0.0"]) = ["10.0.0", "9.0.0"] :=
  ⟨rfl, fun _ _ => mem_getInstalledVersions, pairwise_getInstalledVersions, by decide⟩

/-- C8 witness: the membership characterisation and ordering at a
concrete store. -/
theorem claim_C8_list_installed_witness :
    ("2.0.0" ∈ getInstalledVersions (some ["v2.0.0", "junk"]) ↔
      vEntry "2.0.0" ∈ ["v2.0.0", "junk"] ∧ (npmParse "2.0.0").isSome) ∧
    (getInstalledVersions (some ["v1.0.0", "v2.0.0"])).Pairwise SemVerGE :=
  ⟨claim_C8_list_installed.2.1 ["v2.0.0", "junk"] "2.0.0",
   claim_C8_list_installed.2.2.1 (some ["v1.0.0", "v2.0.0"])⟩

/-- C8 counterexample: the directory entry `vv2.0.0` is of the form
`v<s>` with `s = v2.0.0`, which is not strict valid semver, yet
`listInstalled` includes it (npm `semver.valid` ignores one leading
`v`) instead of ignoring it — so the result is `["v2.0.0"]`, not the
`[]` the claim predicts. -/
theorem claim_C8_counterexample :
    getInstalledVersions (some ["vv2.0.0"]) = ["v2.0.0"] ∧ parseStrict "v2.0.0" = none :=
  ⟨by decide, by decide⟩

/-- C4: during detection, a read error on the version file or a read
or JSON-parse error on the manifest is swallowed — the directory
behaves exactly as if the erroring source were absent — and when the
whole directory yields nothing the walk continues to the parent
instead of aborting. -/
theorem claim_C4_detector_error_recovery (kind : String) :
    (∀ p : PkgFile, lookupDir kind ⟨.unreadable, p⟩ = lookupDir kind ⟨.absent, p⟩) ∧
    (∀ vf : VFile, lookupDir kind ⟨vf, .unreadable⟩ = lookupDir kind ⟨vf, .absent⟩ ∧
      lookupDir kind ⟨vf, .malformed⟩ = lookupDir kind ⟨vf, .absent⟩) ∧
    lookupDir kind ⟨.unreadable, .malformed⟩ = none ∧
    (∀ (d : DirNode) (rest : List DirNode), lookupDir kind d = none →
      detectWalk kind (d :: rest) = detectWalk kind rest) := by
  refine ⟨fun p => rfl, fun vf => ⟨?_, ?_⟩, rfl, ?_⟩
  · cases vf <;> rfl
  · cases vf <;> rfl
  · intro d rest h
    unfold detectWalk
    rw [h]
    cases rest <;> rfl

/-- C4 witness: a directory whose version file is unreadable and whose
`package.json` is malformed contributes nothing, and the walk finds the
parent directory's version file. -/
theorem claim_C4_detector_error_recovery_witness :
    lookupDir "node" ⟨.unreadable, .malformed⟩ = none ∧
    detectWalk "node" [⟨.unreadable, .malformed⟩, ⟨.content "18.0.0", .absent⟩] =
      detectWalk "node" [⟨.content "18.0.0", .absent⟩] :=
  ⟨(claim_C4_detector_error_recovery "node").2.2.1,
   (claim_C4_detector_error_recovery "node").2.2.2 ⟨.unreadable, .malformed⟩
     [⟨.content "18.0.0", .absent⟩] (claim_C4_detector_error_recovery "node").2.2.1⟩

/-- C5: in any directory holding a `.{kind}-version` file, the
Detector returns that file's trimmed content — whatever the manifest
says, even with a matching entry present — and a directory where the
lookup succeeds ends the walk, so a nearer match always beats any
ancestor match. -/
theorem claim_C5_detector_precedence (kind : String) :
    (∀ (s : String) (pkg : PkgFile) (rest : List DirNode),
      detectWalk kind (⟨.content s, pkg⟩ :: rest) = some ⟨jsTrim s, none⟩) ∧
    (∀ (d : DirNode) (rest : List DirNode) (r : VersionDetectResult),
      lookupDir kind d = some r → detectWalk kind (d :: rest) = some r) := by
  constructor
  · intro s pkg rest
    rfl
  · intro d rest r h
    unfold detectWalk
    rw [h]

/-- C5 witness: a version file ` 18.0.0` (with whitespace) next to a
matching manifest entry `^16.0.0` wins with its trimmed content, and
beats an ancestor directory's `20.0.0` version file. -/
theorem claim_C5_detector_precedence_witness :
    detectWalk "node"
      [⟨.content " 18.0.0\n", .manifest [⟨some "node", some "^16.0.0", none⟩]⟩,
       ⟨.content "20.0.0", .absent⟩] = some ⟨"18.0.0", none⟩ := by
  have h := (claim_C5_detector_precedence "node").1 " 18.0.0\n"
    (.manifest [⟨some "node", some "^16.0.0", none⟩]) [⟨.content "20.0.0", .absent⟩]
  rw [h]
  decide

/-- C1: when `use` runs with no explicit request and detection carried
an `onFail` policy, and nothing installed (default included) satisfies
the detected range: `ignore` terminates with no change and no output;
`warn` emits the recommendation warning and terminates with no change;
and only an absent `onFail`, `error`, or `download` policy — or an
explicit user range — reaches the y/N install prompt. -/
theorem claim_C1_onfail_policies (kind : String) (remoteRaw : List String) (st : Store)
    (defaultVersion : Option String) (r rawAnswer : String)
    (hd : ∀ d, defaultVersion = some d → satisfiesStr d r = false)
    (hscan : (getInstalledVersions st.versionsDir).find? (fun x => satisfiesStr x r) = none) :
    useCurrent kind remoteRaw st defaultVersion (.auto (some ⟨r, some .ignore⟩)) rawAnswer =
      ⟨.noChange, false, [], st⟩ ∧
    useCurrent kind remoteRaw st defaultVersion (.auto (some ⟨r, some .warn⟩)) rawAnswer =
      ⟨.noChange, false, [warnMessage kind r], st⟩ ∧
    (∀ f : Option OnFail, f = none ∨ f = some .error ∨ f = some .download →
      (useCurrent kind remoteRaw st defaultVersion (.auto (some ⟨r, f⟩)) rawAnswer).prompted =
        true) ∧
    (useCurrent kind remoteRaw st defaultVersion (.explicitRange r) rawAnswer).prompted =
      true := by
  have hrange : ∀ (f : Option OnFail) (fd : Bool),
      useCurrentRange kind remoteRaw st defaultVersion r f fd rawAnswer =
        useCurrentScan kind remoteRaw st r f fd rawAnswer := by
    intro f fd
    cases hdv : defaultVersion with
    | none => simp only [useCurrentRange, hdv]
    | some d =>
      simp only [useCurrentRange, hdv]
      rw [if_neg (by simp [hd d hdv])]
  have hprompt : ∀ (f : Option OnFail) (fd : Bool),
      ((fd && f == some OnFail.ignore) = false) →
      ((fd && f == some OnFail.warn) = false) →
      (useCurrentScan kind remoteRaw st r f fd rawAnswer).prompted = true := by
    intro f fd h1 h2
    unfold useCurrentScan
    rw [hscan, if_neg (by simp [h1]), if_neg (by simp [h2])]
    by_cases hy : answerIsYes (askStep rawAnswer) = true
    · rw [if_pos hy]
      unfold useCurrentRemote
      cases (getRemoteVersions remoteRaw).find? (fun rv => satisfiesStr rv r) <;> rfl
    · rw [if_neg hy]
  refine ⟨?_, ?_, ?_, ?_⟩
  · show useCurrentRange kind remoteRaw st defaultVersion r (some .ignore) true rawAnswer = _
    rw [hrange]
    unfold useCurrentScan
    rw [hscan]
    rfl
  · show useCurrentRange kind remoteRaw st defaultVersion r (some .warn) true rawAnswer = _
    rw [hrange]
    unfold useCurrentScan
    rw [hscan]
    rfl
  · rintro f (rfl | rfl | rfl) <;>
      · show (useCurrentRange kind remoteRaw st defaultVersion r _ true rawAnswer).prompted = _
        rw [hrange]
        exact hprompt _ true rfl rfl
  · show (useCurrentRange kind remoteRaw st defaultVersion r none false rawAnswer).prompted = _
    rw [hrange]
    exact hprompt none false rfl rfl

/-- C1 witness: with only `v1.0.0` installed and detected range
`^3.0.0`, `onFail = ignore` yields no change and no output without
prompting, `onFail = warn` emits exactly the recommendation warning,
and `onFail = error` prompts. -/
theorem claim_C1_onfail_policies_witness :
    useCurrent "node" [] ⟨some ["v1.0.0"], []⟩ (some "1.0.0")
      (.auto (some ⟨"^3.0.0", some .ignore⟩)) "" =
      ⟨.noChange, false, [], ⟨some ["v1.0.0"], []⟩⟩ ∧
    useCurrent "node" [] ⟨some ["v1.0.0"], []⟩ (some "1.0.0")
      (.auto (some ⟨"^3.0.0", some .warn⟩)) "" =
      ⟨.noChange, false, [warnMessage "node" "^3.0.0"], ⟨some ["v1.0.0"], []⟩⟩ ∧
    (useCurrent "node" [] ⟨some ["v1.0.0"], []⟩ (some "1.0.0")
      (.auto (some ⟨"^3.0.0", some .error⟩)) "").prompted = true := by
  have hd : ∀ d, (some "1.0.0" : Option String) = some d → satisfiesStr d "^3.0.0" = false := by
    intro d hdv
    cases hdv
    decide
  refine ⟨(claim_C1_onfail_policies "node" [] _ _ "^3.0.0" "" hd (by decide)).1,
    (claim_C1_onfail_policies "node" [] _ _ "^3.0.0" "" hd (by decide)).2.1,
    (claim_C1_onfail_policies "node" [] _ _ "^3.0.0" "" hd (by decide)).2.2.1
      (some .error) (by simp)⟩

theorem nodup_fst_eq {al : List (String × String)} (hnd : (al.map Prod.fst).Nodup)
    {n t1 t2 : String} (h1 : (n, t1) ∈ al) (h2 : (n, t2) ∈ al) : t1 = t2 := by
  induction al with
  | nil => cases h1
  | cons hd rest ih =>
    rw [List.map_cons, List.nodup_cons] at hnd
    rcases List.mem_cons.mp h1 with h1 | h1 <;> rcases List.mem_cons.mp h2 with h2 | h2
    · injection h1.trans h2.symm with h h'
    · exfalso
      rw [← h1] at hnd
      have hmem : Prod.fst (n, t2) ∈ List.map Prod.fst rest :=
        List.mem_map_of_mem Prod.fst h2
      exact hnd.1 hmem
    · exfalso
      rw [← h2] at hnd
      have hmem : Prod.fst (n, t1) ∈ List.map Prod.fst rest :=
        List.mem_map_of_mem Prod.fst h1
      exact hnd.1 hmem
    · exact ih hnd.2 h1 h2

/-- C2: for an installed version (with duplicate-free directory
entries and alias names), `uninstall` succeeds, removes every alias
whose target is that version — no surviving alias targets it — and
when `default` was among the removed aliases it is re-pointed at the
head of the remaining descending installed list (which is maximal
among the remaining versions) when one remains, and is absent when
none remains. -/
theorem claim_C2_uninstall_cascade (st : Store) (v : String) (sv : SemVer)
    (hp : npmParse v = some sv) (hin : vEntry v ∈ st.versionsDir.getD [])
    (hnd : (st.versionsDir.getD []).Nodup)
    (hna : (st.aliases.map Prod.fst).Nodup) :
    ∃ st', uninstallModel st v = .ok (true, st') ∧
      (∀ p ∈ st'.aliases, p.2 ≠ v) ∧
      (("default", v) ∈ st.aliases →
        ∀ top rest,
          getInstalledVersions (some ((st.versionsDir.getD []).erase (vEntry v))) =
            top :: rest →
          ("default", top) ∈ st'.aliases ∧
          ∀ w ∈ getInstalledVersions (some ((st.versionsDir.getD []).erase (vEntry v))),
            SemVerGE top w) ∧
      (("default", v) ∈ st.aliases →
        getInstalledVersions (some ((st.versionsDir.getD []).erase (vEntry v))) = [] →
        ∀ t, ("default", t) ∉ st'.aliases) := by
  have hvnotin : v ∉ getInstalledVersions (some ((st.versionsDir.getD []).erase (vEntry v))) := by
    intro hmem
    have := (mem_getInstalledVersions.mp hmem).1
    rw [List.Nodup.mem_erase_iff hnd] at this
    exact this.1 rfl
  unfold uninstallModel
  rw [if_neg (by simp [hp]), if_pos hin]
  by_cases hdef : "default" ∈ (removeAliasesTargeting v st.aliases).2
  · rw [if_pos hdef]
    cases hrem : getInstalledVersions (some ((st.versionsDir.getD []).erase (vEntry v))) with
    | nil =>
      refine ⟨_, rfl, ?_, ?_, ?_⟩
      · intro p hpmem
        exact (removeAliasesTargeting_fst hpmem).2
      · intro _ top rest htop
        cases htop
      · intro _ _ t ht
        have h1 := (removeAliasesTargeting_fst ht).1
        have h2 := (removeAliasesTargeting_fst ht).2
        have hdv : ("default", v) ∈ st.aliases := removeAliasesTargeting_snd.mp hdef
        exact h2 (nodup_fst_eq hna h1 hdv)
    | cons top0 rest0 =>
      rw [hrem] at hvnotin
      refine ⟨_, rfl, ?_, ?_, ?_⟩
      · intro p hpmem
        rcases mem_setAlias.mp hpmem with rfl | ⟨hmem, _⟩
        · intro hpv
          apply hvnotin
          rw [← show top0 = v from hpv]
          exact List.mem_cons_self _ _
        · exact (removeAliasesTargeting_fst hmem).2
      · intro _ top rest htop
        injection htop with h1 h2
        subst h1
        refine ⟨mem_setAlias.mpr (.inl rfl), ?_⟩
        intro w hw
        have hpw : (top0 :: rest0).Pairwise SemVerGE := by
          rw [← hrem]
          exact pairwise_getInstalledVersions _
        exact pairwise_head_max hpw rfl w hw
      · intro _ habs
        cases habs
  · rw [if_neg hdef]
    refine ⟨_, rfl, ?_, ?_, ?_⟩
    · intro p hpmem
      exact (removeAliasesTargeting_fst hpmem).2
    · intro hdv
      exact absurd (removeAliasesTargeting_snd.mpr hdv) hdef
    · intro hdv
      exact absurd (removeAliasesTargeting_snd.mpr hdv) hdef

/-- C2 witness: uninstalling `2.0.0` from a store holding `v2.0.0`,
`v3.0.0`, `v1.0.0` with `default` and `mine` at `2.0.0` and `other` at
`1.0.0` removes `default` and `mine`, keeps `other`, and re-points
`default` at the highest remaining version `3.0.0`. -/
theorem claim_C2_uninstall_cascade_witness :
    ∃ st', uninstallModel ⟨some ["v2.0.0", "v3.0.0", "v1.0.0"],
        [("default", "2.0.0"), ("mine", "2.0.0"), ("other", "1.0.0")]⟩ "2.0.0" =
      .ok (true, st') ∧
      (∀ p ∈ st'.aliases, p.2 ≠ "2.0.0") ∧
      (("default", "2.0.0") ∈ [("default", "2.0.0"), ("mine", "2.0.0"), ("other", "1.0.0")] →
        ∀ top rest,
          getInstalledVersions (some ((["v2.0.0", "v3.0.0", "v1.0.0"] : List String).erase
            (vEntry "2.0.0"))) = top :: rest →
          ("default", top) ∈ st'.aliases ∧
          ∀ w ∈ getInstalledVersions (some ((["v2.0.0", "v3.0.0", "v1.0.0"] : List String).erase
            (vEntry "2.0.0"))), SemVerGE top w) ∧
      (("default", "2.0.0") ∈ [("default", "2.0.0"), ("mine", "2.0.0"), ("other", "1.0.0")] →
        getInstalledVersions (some ((["v2.0.0", "v3.0.0", "v1.0.0"] : List String).erase
          (vEntry "2.0.0"))) = [] →
        ∀ t, ("default", t) ∉ st'.aliases) :=
  claim_C2_uninstall_cascade
    ⟨some ["v2.0.0", "v3.0.0", "v1.0.0"],
      [("default", "2.0.0"), ("mine", "2.0.0"), ("other", "1.0.0")]⟩
    "2.0.0" ⟨2, 0, 0, []⟩ (by decide) (by decide) (by decide) (by decide)

end JRM
